import Mathlib

/-!
Shallow embedding of the trie implementation in `src/src/main.rs`
(`TrieNode<T>`, `Trie<T>`).

Modelling conventions:

* `HashMap<char, TrieNode<T>>` is modelled as an association list
  `List (Char × TrieNode T)`.  A `HashMap` has unique keys, so on every
  representable state the operations below agree with the hash map:
  `mapLookup` finds the (unique) entry, `mapInsert` overwrites it in place
  or appends a fresh entry, `mapRemove` removes it.
* Rust `&str` keys are modelled as `List Char`, matching the iteration
  order of `key.chars()`.
* Mutation through `&mut` references is modelled by explicit state
  passing: descending into a child through `get_child_node` and mutating
  it corresponds to looking the child up, transforming it, and writing the
  transformed child back under the same key (`mapInsert` at an existing
  key replaces the entry in place).
* Every `.unwrap()` in the Rust source is a potential panic; functions
  containing one return `Option`, with `none` meaning "a panic occurred".
  Totality of the result (`isSome`) is exactly panic freedom.
-/

/-- Lookup in an association list, modelling `HashMap::get` /
`HashMap::contains_key` on a unique-key map. -/
def mapLookup {α : Type} (l : List (Char × α)) (c : Char) : Option α :=
  match l with
  | [] => none
  | (k, v) :: rest => if k = c then some v else mapLookup rest c

/-- Insert in an association list, modelling `HashMap::insert`: the entry
at an existing key is overwritten in place, a fresh key is appended. -/
def mapInsert {α : Type} (l : List (Char × α)) (c : Char) (v : α) :
    List (Char × α) :=
  match l with
  | [] => [(c, v)]
  | (k, w) :: rest =>
    if k = c then (k, v) :: rest else (k, w) :: mapInsert rest c v

/-- Removal from an association list, modelling `HashMap::remove`.  On a
unique-key map (every reachable state) removing the first occurrence and
filtering all occurrences coincide; we filter, which keeps the lemmas
about the result unconditional. -/
def mapRemove {α : Type} (l : List (Char × α)) (c : Char) :
    List (Char × α) :=
  match l with
  | [] => []
  | (k, w) :: rest => if k = c then mapRemove rest c else (k, w) :: mapRemove rest c

/-- `TrieNode<T>` from the source: a label character, an optional value
and a children map. -/
inductive TrieNode (T : Type) : Type where
  | mk : Char → Option T → List (Char × TrieNode T) → TrieNode T

namespace TrieNode

variable {T : Type}

/-- Field `key_char_`. -/
def key_char_ : TrieNode T → Char
  | .mk k _ _ => k

/-- Field `value_`. -/
def value_ : TrieNode T → Option T
  | .mk _ v _ => v

/-- Field `children_`. -/
def children_ : TrieNode T → List (Char × TrieNode T)
  | .mk _ _ ch => ch

/-- Replace the children map of a node, keeping label and value.  Used to
model in-place mutation of `self.children_`. -/
def withChildren : TrieNode T → List (Char × TrieNode T) → TrieNode T
  | .mk k v _, ch => .mk k v ch

/-- `TrieNode::new`. -/
def new (key_char : Char) (value : Option T) : TrieNode T :=
  .mk key_char value []

/-- `TrieNode::has_child`. -/
def has_child (n : TrieNode T) (key_char : Char) : Bool :=
  (mapLookup n.children_ key_char).isSome

/-- `TrieNode::has_children`. -/
def has_children (n : TrieNode T) : Bool :=
  !n.children_.isEmpty

/-- `TrieNode::get_key_char`. -/
def get_key_char (n : TrieNode T) : Char :=
  n.key_char_

/-- `TrieNode::get_child_node`; the returned `&mut` handle is modelled as
the child's current state. -/
def get_child_node (n : TrieNode T) (key_char : Char) : Option (TrieNode T) :=
  mapLookup n.children_ key_char

/-- `TrieNode::get_children`. -/
def get_children (n : TrieNode T) : List (Char × TrieNode T) :=
  n.children_

/-- `TrieNode::get_value`. -/
def get_value (n : TrieNode T) : Option T :=
  n.value_

/-- `TrieNode::set_value`. -/
def set_value : TrieNode T → T → TrieNode T
  | .mk k _ ch, v => .mk k (some v) ch

/-- `TrieNode::set_key_char`. -/
def set_key_char : TrieNode T → Char → TrieNode T
  | .mk _ v ch, k => .mk k v ch

/-- `TrieNode::insert_child_node`.  Result: the returned
`Option<&mut TrieNode<T>>` (the handle to the just-inserted child, as
stored) paired with the state of `self` after the call.  The source first
rejects an existing child, then a label mismatch, then performs
`self.children_.insert(key_char, child)` (whose returned old value is
necessarily `None` here) and answers `self.children_.get_mut(&key_char)`;
that final lookup is the one behind the `.unwrap()`. -/
def insert_child_node (n : TrieNode T) (key_char : Char) (child : TrieNode T) :
    Option (TrieNode T) × TrieNode T :=
  if n.has_child key_char then (none, n)
  else if key_char ≠ child.get_key_char then (none, n)
  else
    match mapLookup n.children_ key_char with
    | some _ => (none, n.withChildren (mapInsert n.children_ key_char child))
    | none =>
      (mapLookup (mapInsert n.children_ key_char child) key_char,
       n.withChildren (mapInsert n.children_ key_char child))

/-- `TrieNode::remove_child_node`: returns ownership of the removed child
(if any) together with the node's state after the removal. -/
def remove_child_node (n : TrieNode T) (key_char : Char) :
    Option (TrieNode T) × TrieNode T :=
  (mapLookup n.children_ key_char,
   n.withChildren (mapRemove n.children_ key_char))

/-- The loop body of `Trie::insert` after the empty-key guard, as a
recursion over the key's characters: every character but the last
descends (creating a valueless node when needed), the last character
either sets the value on an existing valueless node, rejects a node that
already has a value, or inserts a fresh node carrying the value.
`none` means one of the `.unwrap()` calls panicked. -/
def insertLoop (v : T) : TrieNode T → List Char → Option (Bool × TrieNode T)
  | _, [] => none
  | n, [c] =>
    if n.has_child c then
      match n.get_child_node c with
      | none => none
      | some child =>
        match child.get_value with
        | some _ => some (false, n)
        | none =>
          some (true, n.withChildren (mapInsert n.children_ c (child.set_value v)))
    else
      match n.insert_child_node c (TrieNode.new c (some v)) with
      | (none, _) => none
      | (some _, n') => some (true, n')
  | n, c :: c2 :: rest =>
    if n.has_child c then
      match n.get_child_node c with
      | none => none
      | some child =>
        match insertLoop v child (c2 :: rest) with
        | none => none
        | some (b, child') =>
          some (b, n.withChildren (mapInsert n.children_ c child'))
    else
      match n.insert_child_node c (TrieNode.new c none) with
      | (none, _) => none
      | (some child, n') =>
        match insertLoop v child (c2 :: rest) with
        | none => none
        | some (b, child') =>
          some (b, n'.withChildren (mapInsert n'.children_ c child'))

/-- The loop of `Trie::get_value` after the empty-key guard: walk the
characters, returning `None` as soon as a child is missing, otherwise the
terminal node's value.  The walk holds a `&mut` cursor, modelled by
writing the (unchanged) child back on the way up; `none` means the
`.unwrap()` panicked. -/
def getValueLoop : TrieNode T → List Char → Option (Option T × TrieNode T)
  | n, [] => some (n.get_value, n)
  | n, c :: rest =>
    if n.has_child c then
      match n.get_child_node c with
      | none => none
      | some child =>
        match getValueLoop child rest with
        | none => none
        | some (r, child') =>
          some (r, n.withChildren (mapInsert n.children_ c child'))
    else some (none, n)

/-- Mathematical reading of the subtree rooted at `n`: the value reached
by following `key`, `none` when the path is missing or ends on a
valueless node. -/
def find : TrieNode T → List Char → Option T
  | n, [] => n.value_
  | n, c :: rest =>
    match mapLookup n.children_ c with
    | none => none
    | some child => find child rest

/-- Whether the node path spelled by `key` exists below `n`. -/
def hasPath : TrieNode T → List Char → Bool
  | _, [] => true
  | n, c :: rest =>
    match mapLookup n.children_ c with
    | none => false
    | some child => hasPath child rest

/-- The node reached by following `key` below `n`, if the path exists. -/
def nodeAt : TrieNode T → List Char → Option (TrieNode T)
  | n, [] => some n
  | n, c :: rest =>
    match mapLookup n.children_ c with
    | none => none
    | some child => nodeAt child rest

end TrieNode

mutual
/-- The structural invariant of the data model: every entry of every
reachable children map is keyed by exactly the stored child's own
`key_char_`. -/
def TrieNode.wfB {T : Type} : TrieNode T → Bool
  | .mk _ _ children => wfChildrenB children

/-- `wfB` for a children map: each entry's key matches its node's label
and each child is itself well-formed. -/
def wfChildrenB {T : Type} : List (Char × TrieNode T) → Bool
  | [] => true
  | (c, n) :: rest => (decide (n.key_char_ = c)) && n.wfB && wfChildrenB rest
end

/-- `Trie<T>` from the source: a wrapper around the root node. -/
structure Trie (T : Type) : Type where
  root_ : TrieNode T

namespace Trie

variable {T : Type}

/-- `Trie::new`: a root labelled with the `'\0'` sentinel, no value. -/
def new : Trie T :=
  ⟨TrieNode.new (Char.ofNat 0) none⟩

/-- `Trie::insert`: rejects the empty key, otherwise runs the walk
(`TrieNode.insertLoop`) on the root.  `none` means a panic. -/
def insert (t : Trie T) (key : List Char) (value : T) :
    Option (Bool × Trie T) :=
  if key.isEmpty then some (false, t)
  else
    match TrieNode.insertLoop value t.root_ key with
    | none => none
    | some (b, root') => some (b, ⟨root'⟩)

/-- `Trie::get_value`: `None` on the empty key, otherwise the walk
(`TrieNode.getValueLoop`) on the root.  The Rust signature takes
`&mut self`, so the result carries the trie's state after the call;
`none` means a panic. -/
def get_value (t : Trie T) (key : List Char) :
    Option (Option T × Trie T) :=
  if key.isEmpty then some (none, t)
  else
    match TrieNode.getValueLoop t.root_ key with
    | none => none
    | some (r, root') => some (r, ⟨root'⟩)

/-- Mathematical reading of the whole trie: the value associated with
`key` (the empty key is never associated). -/
def lookup (t : Trie T) (key : List Char) : Option T :=
  if key.isEmpty then none else t.root_.find key

/-- The structural invariant, lifted to the trie. -/
def wf (t : Trie T) : Bool :=
  t.root_.wfB

/-- Run `Trie::insert` over a list of key/value pairs, collecting the
returned booleans; `none` as soon as one call panics. -/
def insertAll (t : Trie T) : List (List Char × T) → Option (List Bool × Trie T)
  | [] => some ([], t)
  | (k, v) :: rest =>
    match t.insert k v with
    | none => none
    | some (b, t') =>
      match t'.insertAll rest with
      | none => none
      | some (bs, t'') => some (b :: bs, t'')

end Trie

/-! ### Association-list map lemmas -/

theorem mapLookup_insert_self {α : Type} (l : List (Char × α)) (c : Char) (v : α) :
    mapLookup (mapInsert l c v) c = some v := by
  induction l with
  | nil => simp [mapInsert, mapLookup]
  | cons p rest ih =>
    obtain ⟨k, w⟩ := p
    by_cases h : k = c
    · simp [mapInsert, mapLookup, h]
    · simp [mapInsert, mapLookup, h, ih]

theorem mapLookup_insert_other {α : Type} (l : List (Char × α)) {c c' : Char}
    (h : c' ≠ c) (v : α) :
    mapLookup (mapInsert l c v) c' = mapLookup l c' := by
  have hcc : ¬ c = c' := fun hc => h hc.symm
  induction l with
  | nil => simp [mapInsert, mapLookup, hcc]
  | cons p rest ih =>
    obtain ⟨k, w⟩ := p
    by_cases hk : k = c
    · subst hk
      simp [mapInsert, mapLookup, hcc]
    · simp [mapInsert, mapLookup, hk, ih]

theorem mapInsert_lookup_self {α : Type} {l : List (Char × α)} {c : Char} {v : α}
    (h : mapLookup l c = some v) : mapInsert l c v = l := by
  induction l with
  | nil => simp [mapLookup] at h
  | cons p rest ih =>
    obtain ⟨k, w⟩ := p
    by_cases hk : k = c
    · subst hk
      simp [mapLookup] at h
      simp [mapInsert, h]
    · simp [mapLookup, hk] at h
      simp [mapInsert, hk, ih h]

theorem mapLookup_remove_self {α : Type} (l : List (Char × α)) (c : Char) :
    mapLookup (mapRemove l c) c = none := by
  induction l with
  | nil => simp [mapRemove, mapLookup]
  | cons p rest ih =>
    obtain ⟨k, w⟩ := p
    by_cases hk : k = c
    · simp [mapRemove, hk, ih]
    · simp [mapRemove, mapLookup, hk, ih]

theorem mapLookup_remove_other {α : Type} (l : List (Char × α)) {c c' : Char}
    (h : c' ≠ c) :
    mapLookup (mapRemove l c) c' = mapLookup l c' := by
  have hcc : ¬ c = c' := fun hc => h hc.symm
  induction l with
  | nil => simp [mapRemove]
  | cons p rest ih =>
    obtain ⟨k, w⟩ := p
    by_cases hk : k = c
    · subst hk
      simp [mapRemove, mapLookup, hcc, ih]
    · simp [mapRemove, mapLookup, hk, ih]

theorem mapLookup_exists_iff {α : Type} (l : List (Char × α)) :
    (∃ c, (mapLookup l c).isSome = true) ↔ l ≠ [] := by
  constructor
  · rintro ⟨c, hc⟩ rfl
    simp [mapLookup] at hc
  · intro h
    match l with
    | (k, v) :: rest => exact ⟨k, by simp [mapLookup]⟩

/-! ### Basic `TrieNode` lemmas -/

namespace TrieNode

variable {T : Type}

theorem children_withChildren (n : TrieNode T) (l : List (Char × TrieNode T)) :
    (n.withChildren l).children_ = l := by
  cases n; rfl

theorem key_char_withChildren (n : TrieNode T) (l : List (Char × TrieNode T)) :
    (n.withChildren l).key_char_ = n.key_char_ := by
  cases n; rfl

theorem value_withChildren (n : TrieNode T) (l : List (Char × TrieNode T)) :
    (n.withChildren l).value_ = n.value_ := by
  cases n; rfl

theorem withChildren_self (n : TrieNode T) : n.withChildren n.children_ = n := by
  cases n; rfl

theorem children_set_value (n : TrieNode T) (v : T) :
    (n.set_value v).children_ = n.children_ := by
  cases n; rfl

theorem key_char_set_value (n : TrieNode T) (v : T) :
    (n.set_value v).key_char_ = n.key_char_ := by
  cases n; rfl

theorem value_set_value (n : TrieNode T) (v : T) :
    (n.set_value v).value_ = some v := by
  cases n; rfl

theorem find_nil (n : TrieNode T) : n.find [] = n.value_ := rfl

theorem find_cons (n : TrieNode T) (c : Char) (ks : List Char) :
    n.find (c :: ks) =
      match mapLookup n.children_ c with
      | none => none
      | some child => child.find ks := rfl

theorem find_set_value (n : TrieNode T) (v : T) (c : Char) (ks : List Char) :
    (n.set_value v).find (c :: ks) = n.find (c :: ks) := by
  rw [find_cons, find_cons, children_set_value]

theorem find_new_none (c : Char) (ks : List Char) :
    (TrieNode.new c (none : Option T)).find ks = none := by
  cases ks <;> rfl

theorem wfB_eq (n : TrieNode T) : n.wfB = wfChildrenB n.children_ := by
  cases n; rfl

theorem wfB_withChildren (n : TrieNode T) (l : List (Char × TrieNode T)) :
    (n.withChildren l).wfB = wfChildrenB l := by
  cases n; rfl

theorem wfB_set_value (n : TrieNode T) (v : T) :
    (n.set_value v).wfB = n.wfB := by
  cases n; rfl

theorem wfB_new (c : Char) (w : Option T) :
    (TrieNode.new c w : TrieNode T).wfB = true := rfl

end TrieNode

theorem wfChildrenB_lookup {T : Type} {l : List (Char × TrieNode T)} {c : Char}
    {child : TrieNode T} (hwf : wfChildrenB l = true)
    (h : mapLookup l c = some child) :
    child.wfB = true ∧ child.key_char_ = c := by
  induction l with
  | nil => simp [mapLookup] at h
  | cons p rest ih =>
    obtain ⟨k, m⟩ := p
    simp only [wfChildrenB, Bool.and_eq_true, decide_eq_true_eq] at hwf
    by_cases hk : k = c
    · subst hk
      simp [mapLookup] at h
      subst h
      exact ⟨hwf.1.2, hwf.1.1⟩
    · simp [mapLookup, hk] at h
      exact ih hwf.2 h

theorem wfChildrenB_insert {T : Type} {l : List (Char × TrieNode T)} {c : Char}
    {child : TrieNode T} (hwf : wfChildrenB l = true)
    (hc : child.wfB = true) (hk : child.key_char_ = c) :
    wfChildrenB (mapInsert l c child) = true := by
  induction l with
  | nil => simp [mapInsert, wfChildrenB, hc, hk]
  | cons p rest ih =>
    obtain ⟨k, m⟩ := p
    simp only [wfChildrenB, Bool.and_eq_true, decide_eq_true_eq] at hwf
    by_cases hkc : k = c
    · subst hkc
      simp [mapInsert, wfChildrenB, hc, hk, hwf.2]
    · simp [mapInsert, hkc, wfChildrenB, hwf.1.1, hwf.1.2, ih hwf.2]

/-! ### `get_value` is a pure read -/

theorem getValueLoop_eq {T : Type} (key : List Char) : ∀ n : TrieNode T,
    TrieNode.getValueLoop n key = some (n.find key, n) := by
  induction key with
  | nil => intro n; rfl
  | cons c rest ih =>
    intro n
    simp only [TrieNode.getValueLoop, TrieNode.has_child, TrieNode.get_child_node,
      TrieNode.find_cons]
    cases h : mapLookup n.children_ c with
    | none => simp [h]
    | some child =>
      simp [h, ih child, mapInsert_lookup_self h, TrieNode.withChildren_self]

theorem get_value_eq {T : Type} (t : Trie T) (key : List Char) :
    t.get_value key = some (t.lookup key, t) := by
  cases key with
  | nil => rfl
  | cons c rest =>
    simp [Trie.get_value, Trie.lookup, getValueLoop_eq]

/-! ### `insert_child_node` evaluation lemmas -/

namespace TrieNode

variable {T : Type}

theorem withChildren_withChildren (n : TrieNode T)
    (a b : List (Char × TrieNode T)) :
    (n.withChildren a).withChildren b = n.withChildren b := by
  cases n; rfl

theorem key_char_new (c : Char) (w : Option T) :
    (TrieNode.new c w : TrieNode T).key_char_ = c := rfl

theorem value_new (c : Char) (w : Option T) :
    (TrieNode.new c w : TrieNode T).value_ = w := rfl

theorem children_new (c : Char) (w : Option T) :
    (TrieNode.new c w : TrieNode T).children_ = [] := rfl

theorem insert_child_node_success {n : TrieNode T} {c : Char}
    {child : TrieNode T} (h : mapLookup n.children_ c = none)
    (hk : child.key_char_ = c) :
    n.insert_child_node c child =
      (some child, n.withChildren (mapInsert n.children_ c child)) := by
  unfold TrieNode.insert_child_node
  simp [TrieNode.has_child, h, TrieNode.get_key_char, hk, mapLookup_insert_self]

theorem insert_child_node_fail_exists {n : TrieNode T} {c : Char}
    (child : TrieNode T) (h : (mapLookup n.children_ c).isSome = true) :
    n.insert_child_node c child = (none, n) := by
  unfold TrieNode.insert_child_node
  simp [TrieNode.has_child, h]

theorem insert_child_node_fail_mismatch {n : TrieNode T} {c : Char}
    {child : TrieNode T} (h : c ≠ child.key_char_) :
    n.insert_child_node c child = (none, n) := by
  unfold TrieNode.insert_child_node
  by_cases hc : (mapLookup n.children_ c).isSome = true
  · simp [TrieNode.has_child, hc]
  · simp [TrieNode.has_child, hc, TrieNode.get_key_char, h]

end TrieNode

/-! ### The main characterization of the insert walk -/

theorem insertLoop_spec {T : Type} (v : T) :
    ∀ (key : List Char) (n : TrieNode T), key ≠ [] →
    ∃ n', TrieNode.insertLoop v n key = some ((n.find key).isNone, n')
      ∧ n'.find key = some ((n.find key).getD v)
      ∧ (∀ k, k ≠ key → n'.find k = n.find k)
      ∧ n'.key_char_ = n.key_char_
      ∧ ((n.find key).isSome = true → n' = n)
      ∧ (n.wfB = true → n'.wfB = true) := by
  intro key
  induction key with
  | nil => intro n h; exact absurd rfl h
  | cons c rest ih =>
    intro n _
    cases rest with
    | nil =>
      cases h : mapLookup n.children_ c with
      | some child =>
        cases hv : child.value_ with
        | some w =>
          refine ⟨n, ?_, ?_, fun k _ => rfl, rfl, fun _ => rfl, fun hw => hw⟩
          · simp [TrieNode.insertLoop, TrieNode.has_child, TrieNode.get_child_node,
              h, TrieNode.get_value, hv, TrieNode.find_cons, TrieNode.find_nil]
          · simp [TrieNode.find_cons, h, TrieNode.find_nil, hv]
        | none =>
          refine ⟨n.withChildren (mapInsert n.children_ c (child.set_value v)),
            ?_, ?_, ?_, TrieNode.key_char_withChildren n _, ?_, ?_⟩
          · simp [TrieNode.insertLoop, TrieNode.has_child, TrieNode.get_child_node,
              h, TrieNode.get_value, hv, TrieNode.find_cons, TrieNode.find_nil]
          · simp [TrieNode.find_cons, TrieNode.children_withChildren,
              mapLookup_insert_self, TrieNode.find_nil, TrieNode.value_set_value,
              h, hv]
          · intro k hk
            cases k with
            | nil => simp [TrieNode.find_nil, TrieNode.value_withChildren]
            | cons d ks =>
              by_cases hd : d = c
              · subst hd
                cases ks with
                | nil => exact absurd rfl hk
                | cons e ks' =>
                  simp only [TrieNode.find_cons, TrieNode.children_withChildren,
                    mapLookup_insert_self, h]
                  rw [TrieNode.children_set_value]
              · simp [TrieNode.find_cons, TrieNode.children_withChildren,
                  mapLookup_insert_other _ hd]
          · intro hdup
            simp [TrieNode.find_cons, h, TrieNode.find_nil, hv] at hdup
          · intro hwf
            rw [TrieNode.wfB_eq] at hwf
            rw [TrieNode.wfB_withChildren]
            have hc := wfChildrenB_lookup hwf h
            exact wfChildrenB_insert hwf
              (by rw [TrieNode.wfB_set_value]; exact hc.1)
              (by rw [TrieNode.key_char_set_value]; exact hc.2)
      | none =>
        refine ⟨n.withChildren (mapInsert n.children_ c (TrieNode.new c (some v))),
          ?_, ?_, ?_, TrieNode.key_char_withChildren n _, ?_, ?_⟩
        · simp [TrieNode.insertLoop, TrieNode.has_child, h,
            TrieNode.insert_child_node_success h (TrieNode.key_char_new c _),
            TrieNode.find_cons]
        · simp [TrieNode.find_cons, TrieNode.children_withChildren,
            mapLookup_insert_self, TrieNode.find_nil, TrieNode.value_new, h]
        · intro k hk
          cases k with
          | nil => simp [TrieNode.find_nil, TrieNode.value_withChildren]
          | cons d ks =>
            by_cases hd : d = c
            · subst hd
              cases ks with
              | nil => exact absurd rfl hk
              | cons e ks' =>
                simp [TrieNode.find_cons, TrieNode.children_withChildren,
                  mapLookup_insert_self, h, TrieNode.children_new, mapLookup]
            · simp [TrieNode.find_cons, TrieNode.children_withChildren,
                mapLookup_insert_other _ hd]
        · intro hdup
          simp [TrieNode.find_cons, h] at hdup
        · intro hwf
          rw [TrieNode.wfB_eq] at hwf
          rw [TrieNode.wfB_withChildren]
          exact wfChildrenB_insert hwf (TrieNode.wfB_new c _) (TrieNode.key_char_new c _)
    | cons c2 rest' =>
      cases h : mapLookup n.children_ c with
      | some child =>
        obtain ⟨child', hloop, hfind, hframe, hkey, hdup, hwf⟩ :=
          ih child (by simp)
        refine ⟨n.withChildren (mapInsert n.children_ c child'),
          ?_, ?_, ?_, TrieNode.key_char_withChildren n _, ?_, ?_⟩
        · simp [TrieNode.insertLoop, TrieNode.has_child, TrieNode.get_child_node,
            h, hloop, TrieNode.find_cons]
        · simp [TrieNode.find_cons, TrieNode.children_withChildren,
            mapLookup_insert_self, h, hfind]
        · intro k hk
          cases k with
          | nil => simp [TrieNode.find_nil, TrieNode.value_withChildren]
          | cons d ks =>
            by_cases hd : d = c
            · subst hd
              have hks : ks ≠ c2 :: rest' := by
                intro hks; exact hk (by rw [hks])
              simp [TrieNode.find_cons, TrieNode.children_withChildren,
                mapLookup_insert_self, h, hframe ks hks]
            · simp [TrieNode.find_cons, TrieNode.children_withChildren,
                mapLookup_insert_other _ hd]
        · intro hdup2
          rw [TrieNode.find_cons] at hdup2
          simp only [h] at hdup2
          rw [hdup hdup2, mapInsert_lookup_self h, TrieNode.withChildren_self]
        · intro hwfn
          rw [TrieNode.wfB_eq] at hwfn
          rw [TrieNode.wfB_withChildren]
          have hc := wfChildrenB_lookup hwfn h
          exact wfChildrenB_insert hwfn (hwf hc.1) (hkey.trans hc.2)
      | none =>
        obtain ⟨child', hloop, hfind, hframe, hkey, hdup, hwf⟩ :=
          ih (TrieNode.new c none) (by simp)
        refine ⟨n.withChildren
            (mapInsert (mapInsert n.children_ c (TrieNode.new c none)) c child'),
          ?_, ?_, ?_, TrieNode.key_char_withChildren n _, ?_, ?_⟩
        · simp [TrieNode.insertLoop, TrieNode.has_child, h,
            TrieNode.insert_child_node_success h (TrieNode.key_char_new c _),
            hloop, TrieNode.find_cons, TrieNode.find_new_none,
            TrieNode.children_withChildren, TrieNode.withChildren_withChildren,
            TrieNode.children_new, mapLookup]
        · simp [TrieNode.find_cons, TrieNode.children_withChildren,
            mapLookup_insert_self, h, hfind, TrieNode.find_new_none,
            TrieNode.children_new, mapLookup]
        · intro k hk
          cases k with
          | nil => simp [TrieNode.find_nil, TrieNode.value_withChildren]
          | cons d ks =>
            by_cases hd : d = c
            · subst hd
              have hks : ks ≠ c2 :: rest' := by
                intro hks; exact hk (by rw [hks])
              simp [TrieNode.find_cons, TrieNode.children_withChildren,
                mapLookup_insert_self, h, hframe ks hks, TrieNode.find_new_none]
            · simp [TrieNode.find_cons, TrieNode.children_withChildren,
                mapLookup_insert_other _ hd, h]
        · intro hdup
          simp [TrieNode.find_cons, h] at hdup
        · intro hwfn
          rw [TrieNode.wfB_eq] at hwfn
          rw [TrieNode.wfB_withChildren]
          have h1 : wfChildrenB (mapInsert n.children_ c (TrieNode.new c (none : Option T))) = true :=
            wfChildrenB_insert hwfn (TrieNode.wfB_new c _) (TrieNode.key_char_new c _)
          exact wfChildrenB_insert h1 (hwf (TrieNode.wfB_new c _))
            (hkey.trans (TrieNode.key_char_new c _))

/-! ### Trie-level consequences -/

theorem insert_nil_eq {T : Type} (t : Trie T) (v : T) :
    t.insert [] v = some (false, t) := rfl

theorem lookup_nil_eq {T : Type} (t : Trie T) : t.lookup [] = none := rfl

theorem lookup_new {T : Type} (key : List Char) :
    (Trie.new : Trie T).lookup key = none := by
  cases key <;> rfl

theorem insert_spec {T : Type} (t : Trie T) {key : List Char} (hk : key ≠ [])
    (v : T) :
    ∃ t', t.insert key v = some ((t.lookup key).isNone, t')
      ∧ t'.lookup key = some ((t.lookup key).getD v)
      ∧ (∀ k, k ≠ key → t'.lookup k = t.lookup k)
      ∧ ((t.lookup key).isSome = true → t' = t)
      ∧ (t.wf = true → t'.wf = true) := by
  obtain ⟨n', hloop, hfind, hframe, _, hdup, hwf⟩ := insertLoop_spec v key t.root_ hk
  refine ⟨⟨n'⟩, ?_, ?_, ?_, ?_, ?_⟩
  · simp [Trie.insert, Trie.lookup, hk, hloop]
  · simp [Trie.lookup, hk, hfind]
  · intro k hkk
    cases k with
    | nil => rfl
    | cons d ks => simpa [Trie.lookup] using hframe (d :: ks) hkk
  · intro hsome
    simp only [Trie.lookup, hk, if_neg, List.isEmpty_eq_true] at hsome
    cases t with
    | mk root => simp [hdup hsome]
  · intro hwfn
    exact hwf hwfn

theorem insertAll_spec {T : Type} :
    ∀ (ps : List (List Char × T)) (t : Trie T),
    (∀ p ∈ ps, p.1 ≠ []) →
    List.Pairwise (fun a b => a.1 ≠ b.1) ps →
    (∀ p ∈ ps, t.lookup p.1 = none) →
    ∃ t', t.insertAll ps = some (List.replicate ps.length true, t')
      ∧ (∀ p ∈ ps, t'.lookup p.1 = some p.2)
      ∧ (∀ k, (∀ p ∈ ps, k ≠ p.1) → t'.lookup k = t.lookup k) := by
  intro ps
  induction ps with
  | nil =>
    intro t _ _ _
    exact ⟨t, rfl, by simp, fun k _ => rfl⟩
  | cons p rest ih =>
    obtain ⟨key, v⟩ := p
    intro t hne hpw habs
    have hkey : key ≠ [] := hne (key, v) (List.mem_cons_self _ _)
    obtain ⟨t1, hins, hfind1, hframe1, _, _⟩ := insert_spec t hkey v
    have habs_key : t.lookup key = none := habs (key, v) (List.mem_cons_self _ _)
    rw [habs_key] at hins hfind1
    have hrest_ne : ∀ p ∈ rest, p.1 ≠ [] :=
      fun p hp => hne p (List.mem_cons_of_mem _ hp)
    have hpw_head : ∀ p ∈ rest, key ≠ p.1 :=
      fun p hp => (List.pairwise_cons.mp hpw).1 p hp
    have hrest_abs : ∀ p ∈ rest, t1.lookup p.1 = none := by
      intro p hp
      rw [hframe1 p.1 fun he => hpw_head p hp he.symm]
      exact habs p (List.mem_cons_of_mem _ hp)
    obtain ⟨t', hall, hget, hframe⟩ :=
      ih t1 hrest_ne (List.pairwise_cons.mp hpw).2 hrest_abs
    refine ⟨t', ?_, ?_, ?_⟩
    · simp [Trie.insertAll, hins, hall, List.replicate_succ]
    · intro p hp
      rcases List.mem_cons.mp hp with hp | hp
      · subst hp
        rw [hframe key fun p hp => hpw_head p hp, hfind1]
        rfl
      · exact hget p hp
    · intro k hk
      rw [hframe k fun p hp => hk p (List.mem_cons_of_mem _ hp),
        hframe1 k (hk (key, v) (List.mem_cons_self _ _))]

/-! ### Paths and reached nodes -/

theorem hasPath_nil {T : Type} (n : TrieNode T) : n.hasPath [] = true := rfl

theorem hasPath_of_find_isSome {T : Type} :
    ∀ (key : List Char) (n : TrieNode T), (n.find key).isSome = true →
    ∀ i, n.hasPath (List.take i key) = true := by
  intro key
  induction key with
  | nil => intro n _ i; cases i <;> rfl
  | cons c rest ih =>
    intro n hf i
    rw [TrieNode.find_cons] at hf
    cases h : mapLookup n.children_ c with
    | none => rw [h] at hf; simp at hf
    | some child =>
      rw [h] at hf
      cases i with
      | zero => rfl
      | succ j =>
        simp only [List.take, TrieNode.hasPath, h]
        exact ih child hf j

theorem find_eq_nodeAt {T : Type} :
    ∀ (key : List Char) (n : TrieNode T),
    n.find key = (n.nodeAt key).bind TrieNode.value_ := by
  intro key
  induction key with
  | nil => intro n; rfl
  | cons c rest ih =>
    intro n
    rw [TrieNode.find_cons]
    cases h : mapLookup n.children_ c with
    | none => simp [TrieNode.nodeAt, h]
    | some child => simp [TrieNode.nodeAt, h, ih child]

theorem lookup_eq_find {T : Type} (t : Trie T) {key : List Char}
    (hk : key ≠ []) : t.lookup key = t.root_.find key := by
  cases key with
  | nil => exact absurd rfl hk
  | cons c ks => rfl

/-! ## Claim theorems -/

/-- C1: inserting any sequence of distinct non-empty keys with values into
a fresh trie makes every `insert` return `true`, and a subsequent
`get_value` on any of those keys returns the value inserted under it.
Each such `get_value` also returns the trie state unchanged (`t'` again),
so the lookups can be performed in any order with the same results. -/
theorem trie_roundtrip_unique_keys {T : Type} (ps : List (List Char × T))
    (hne : ∀ p ∈ ps, p.1 ≠ [])
    (hdist : List.Pairwise (fun a b => a.1 ≠ b.1) ps) :
    ∃ t', Trie.insertAll Trie.new ps = some (List.replicate ps.length true, t')
      ∧ ∀ p ∈ ps, t'.get_value p.1 = some (some p.2, t') := by
  obtain ⟨t', hall, hget, _⟩ :=
    insertAll_spec ps Trie.new hne hdist (fun p _ => lookup_new p.1)
  exact ⟨t', hall, fun p hp => by rw [get_value_eq, hget p hp]⟩

/-- Witness for C1: the key/value sequence of the repository's own test
(`"a"`, `"aaa"`, `"aaaa"`, `"aa"`). -/
theorem trie_roundtrip_unique_keys_witness :
    ∃ t', Trie.insertAll (Trie.new : Trie Nat)
        [(['a'], 1), (['a', 'a', 'a'], 3), (['a', 'a', 'a', 'a'], 4), (['a', 'a'], 2)]
        = some (List.replicate (List.length
            [(['a'], 1), (['a', 'a', 'a'], 3), (['a', 'a', 'a', 'a'], 4), (['a', 'a'], 2)]) true, t')
      ∧ ∀ p ∈ [(['a'], 1), (['a', 'a', 'a'], 3), (['a', 'a', 'a', 'a'], 4), (['a', 'a'], 2)],
          t'.get_value p.1 = some (some p.2, t') :=
  trie_roundtrip_unique_keys _ (by decide) (by decide)

/-- C2: when `key` is already associated with the value `w`, a second
`insert key v2` returns `false` and `get_value key` afterwards still
returns `w` (the stored value is not overwritten). -/
theorem trie_duplicate_insert_preserves_value {T : Type} (t : Trie T)
    (key : List Char) (v2 w : T)
    (hw : t.get_value key = some (some w, t)) :
    ∃ t', t.insert key v2 = some (false, t')
      ∧ t'.get_value key = some (some w, t') := by
  have hlook : t.lookup key = some w := by
    rw [get_value_eq] at hw
    simpa using hw
  have hkey : key ≠ [] := by
    intro h
    subst h
    rw [lookup_nil_eq] at hlook
    cases hlook
  obtain ⟨t', hins, _, _, hdup, _⟩ := insert_spec t hkey v2
  rw [hlook] at hins
  have ht : t' = t := hdup (by rw [hlook]; rfl)
  subst ht
  refine ⟨t', by simpa using hins, ?_⟩
  rw [get_value_eq, hlook]

/-- Witness for C2: a trie storing `1` under `"a"` rejects a second insert
of `2` under `"a"` and keeps the `1`. -/
theorem trie_duplicate_insert_preserves_value_witness :
    ∃ t', (Trie.mk (TrieNode.mk (Char.ofNat 0) none
          [('a', TrieNode.mk 'a' (some 1) [])]) : Trie Nat).insert ['a'] 2
        = some (false, t')
      ∧ t'.get_value ['a'] = some (some 1, t') :=
  trie_duplicate_insert_preserves_value _ ['a'] 2 1 rfl

/-- C3: `get_value` returns `none` on the empty key, `none` when the walk
from the root dies on a missing child (`nodeAt` finds no node), and the
terminal node's value when the walk completes — in particular `none` when
that node is a pure prefix with no value set. -/
theorem trie_get_value_characterization {T : Type} (t : Trie T)
    (key : List Char) :
    ∃ r, t.get_value key = some (r, t)
      ∧ (key = [] → r = none)
      ∧ (key ≠ [] → t.root_.nodeAt key = none → r = none)
      ∧ (∀ nd, key ≠ [] → t.root_.nodeAt key = some nd → r = nd.get_value) := by
  refine ⟨t.lookup key, get_value_eq t key, ?_, ?_, ?_⟩
  · intro h
    subst h
    rfl
  · intro hk hnone
    rw [lookup_eq_find t hk, find_eq_nodeAt, hnone]
    rfl
  · intro nd hk hsome
    rw [lookup_eq_find t hk, find_eq_nodeAt, hsome]
    rfl

/-- Witness for C3: lookup of the never-inserted key `"b"` in a trie
holding only `"a"` answers `none` via the theorem's missing-child case. -/
theorem trie_get_value_characterization_witness :
    (Trie.mk (TrieNode.mk (Char.ofNat 0) none
        [('a', TrieNode.mk 'a' (some 1) [])]) : Trie Nat).get_value ['b']
      = some (none, Trie.mk (TrieNode.mk (Char.ofNat 0) none
        [('a', TrieNode.mk 'a' (some 1) [])])) := by
  obtain ⟨r, hr, -, h3, -⟩ := trie_get_value_characterization
    (Trie.mk (TrieNode.mk (Char.ofNat 0) none
      [('a', TrieNode.mk 'a' (some 1) [])]) : Trie Nat) ['b']
  rw [h3 (by decide) rfl] at hr
  exact hr

/-- C4: inserting any value under the empty key returns `false` and
leaves the trie exactly unchanged. -/
theorem trie_insert_empty_key_noop {T : Type} (t : Trie T) (v : T) :
    t.insert [] v = some (false, t) := rfl

/-- C5: `insert_child_node c child` returns the `none` sentinel and leaves
the parent unchanged exactly when a child already exists under `c` or
`child`'s own label differs from `c`; otherwise it returns a handle to the
just-inserted child, which is stored under key `c`, and the parent's
label, value and other children are untouched. -/
theorem trieNode_insert_child_node_spec {T : Type} (n : TrieNode T)
    (c : Char) (child : TrieNode T) :
    (((n.insert_child_node c child).1 = none
        ∧ (n.insert_child_node c child).2 = n)
      ↔ (n.has_child c = true ∨ c ≠ child.get_key_char))
    ∧ (¬ (n.has_child c = true ∨ c ≠ child.get_key_char) →
        (n.insert_child_node c child).1 = some child
        ∧ mapLookup ((n.insert_child_node c child).2).children_ c = some child
        ∧ ((n.insert_child_node c child).2).key_char_ = n.key_char_
        ∧ ((n.insert_child_node c child).2).value_ = n.value_
        ∧ ∀ c', c' ≠ c →
            mapLookup ((n.insert_child_node c child).2).children_ c'
              = mapLookup n.children_ c') := by
  cases hm : mapLookup n.children_ c with
  | some x =>
    have h1 : n.has_child c = true := by
      rw [TrieNode.has_child, hm]
      rfl
    refine ⟨⟨fun _ => Or.inl h1, fun _ => ?_⟩,
      fun hcon => absurd (Or.inl h1) hcon⟩
    rw [TrieNode.insert_child_node_fail_exists child h1]
    exact ⟨rfl, rfl⟩
  | none =>
    by_cases h2 : c = child.get_key_char
    · have hsucc := TrieNode.insert_child_node_success hm
        (show child.key_char_ = c from h2.symm)
      constructor
      · constructor
        · intro hfail
          rw [hsucc] at hfail
          cases hfail.1
        · rintro (hor | hor)
          · rw [TrieNode.has_child, hm] at hor
            cases hor
          · exact absurd h2 hor
      · intro _
        rw [hsucc]
        refine ⟨rfl, ?_, TrieNode.key_char_withChildren n _,
          TrieNode.value_withChildren n _, ?_⟩
        · rw [TrieNode.children_withChildren]
          exact mapLookup_insert_self _ _ _
        · intro c' hc'
          rw [TrieNode.children_withChildren]
          exact mapLookup_insert_other _ hc' _
    · have hfail := @TrieNode.insert_child_node_fail_mismatch T n c child h2
      refine ⟨⟨fun _ => Or.inr h2, fun _ => ?_⟩,
        fun hcon => absurd (Or.inr h2) hcon⟩
      rw [hfail]
      exact ⟨rfl, rfl⟩

/-- Witness for C5: inserting a fresh matching child succeeds and returns
it; inserting at an occupied key leaves the parent unchanged. -/
theorem trieNode_insert_child_node_spec_witness :
    ((TrieNode.mk 'a' (none : Option Nat) []).insert_child_node 'b'
        (TrieNode.mk 'b' none [])).1 = some (TrieNode.mk 'b' none [])
    ∧ ((TrieNode.mk 'a' (none : Option Nat)
          [('c', TrieNode.mk 'c' none [])]).insert_child_node 'c'
        (TrieNode.mk 'c' none [])).2
      = TrieNode.mk 'a' none [('c', TrieNode.mk 'c' none [])] := by
  constructor
  · exact ((trieNode_insert_child_node_spec (TrieNode.mk 'a' none []) 'b'
      (TrieNode.mk 'b' none [])).2 (by decide)).1
  · exact ((trieNode_insert_child_node_spec
      (TrieNode.mk 'a' none [('c', TrieNode.mk 'c' none [])]) 'c'
      (TrieNode.mk 'c' none [])).1.mpr (Or.inl (by decide))).2

/-- C6: an insert that fails as a duplicate (detected at the final
character) returns `false`, every structural node on the walked path —
including any node created during that same call — is present in the trie
afterwards, and no stored value changes anywhere: only the terminal value
write is skipped.  (Because a duplicate means the full path already
exists, the walk in fact creates no nodes, so nothing needs rolling
back.) -/
theorem trie_duplicate_insert_no_rollback {T : Type} (t : Trie T)
    (key : List Char) (v w : T)
    (hdup : t.get_value key = some (some w, t)) :
    ∃ t', t.insert key v = some (false, t')
      ∧ (∀ i, t'.root_.hasPath (List.take i key) = true)
      ∧ (∀ k, t'.lookup k = t.lookup k) := by
  have hlook : t.lookup key = some w := by
    rw [get_value_eq] at hdup
    simpa using hdup
  have hkey : key ≠ [] := by
    intro h
    subst h
    rw [lookup_nil_eq] at hlook
    cases hlook
  obtain ⟨t', hins, _, _, hdup', _⟩ := insert_spec t hkey v
  rw [hlook] at hins
  have ht : t' = t := hdup' (by rw [hlook]; rfl)
  subst ht
  refine ⟨t', by simpa using hins, ?_, fun k => rfl⟩
  intro i
  apply hasPath_of_find_isSome
  rw [← lookup_eq_find t' hkey, hlook]
  rfl

/-- Witness for C6: re-inserting under `"ab"` in a trie already holding a
value there fails, yet the nodes for `""`, `"a"` and `"ab"` all remain
and no association changes. -/
theorem trie_duplicate_insert_no_rollback_witness :
    ∃ t', (Trie.mk (TrieNode.mk (Char.ofNat 0) none
          [('a', TrieNode.mk 'a' none
            [('b', TrieNode.mk 'b' (some 5) [])])]) : Trie Nat).insert
        ['a', 'b'] 9 = some (false, t')
      ∧ (∀ i, t'.root_.hasPath (List.take i ['a', 'b']) = true)
      ∧ (∀ k, t'.lookup k
          = (Trie.mk (TrieNode.mk (Char.ofNat 0) none
              [('a', TrieNode.mk 'a' none
                [('b', TrieNode.mk 'b' (some 5) [])])]) : Trie Nat).lookup k) :=
  trie_duplicate_insert_no_rollback _ ['a', 'b'] 9 5 rfl

/-- C7: the key/label coherence invariant — every reachable node's entry
in its parent's children map is keyed by exactly that node's `key_char_` —
holds for `Trie::new` and is preserved by `Trie::insert` and
`Trie::get_value`. -/
theorem trie_wf_invariant {T : Type} :
    (Trie.new : Trie T).wf = true
    ∧ (∀ (t : Trie T) (key : List Char) (v : T) (b : Bool) (t' : Trie T),
        t.wf = true → t.insert key v = some (b, t') → t'.wf = true)
    ∧ (∀ (t : Trie T) (key : List Char) (r : Option T) (t' : Trie T),
        t.wf = true → t.get_value key = some (r, t') → t'.wf = true) := by
  refine ⟨rfl, ?_, ?_⟩
  · intro t key v b t' hwf hins
    cases key with
    | nil =>
      rw [insert_nil_eq] at hins
      injection hins with h
      rw [Prod.mk.injEq] at h
      rw [← h.2]
      exact hwf
    | cons c ks =>
      obtain ⟨t'', hins'', _, _, _, hwf''⟩ :=
        insert_spec t (List.cons_ne_nil c ks) v
      rw [hins''] at hins
      injection hins with h
      rw [Prod.mk.injEq] at h
      rw [← h.2]
      exact hwf'' hwf
  · intro t key r t' hwf hget
    rw [get_value_eq] at hget
    injection hget with h
    rw [Prod.mk.injEq] at h
    rw [← h.2]
    exact hwf

/-- Witness for C7: the trie obtained by inserting `7` under `"a"` into a
fresh trie is well-formed, via the preservation part of the theorem. -/
theorem trie_wf_invariant_witness :
    (Trie.mk (TrieNode.mk (Char.ofNat 0) (none : Option Nat)
      [('a', TrieNode.mk 'a' (some 7) [])])).wf = true :=
  (@trie_wf_invariant Nat).2.1 Trie.new ['a'] 7 true
    (Trie.mk (TrieNode.mk (Char.ofNat 0) none
      [('a', TrieNode.mk 'a' (some 7) [])]))
    rfl rfl

/-- C8: after `remove_child_node c` the node has no child at `c`, every
other child is unchanged, `has_children` answers whether any children
remain, and the call returns exactly the previously stored child (its
subtree intact) — the `none` sentinel when there was none.  The node's
label and value are untouched. -/
theorem trieNode_remove_child_node_spec {T : Type} (n : TrieNode T)
    (c : Char) :
    ((n.remove_child_node c).2).has_child c = false
    ∧ (∀ c', c' ≠ c →
        mapLookup ((n.remove_child_node c).2).children_ c'
          = mapLookup n.children_ c')
    ∧ (((n.remove_child_node c).2).has_children = true
        ↔ ∃ c', ((n.remove_child_node c).2).has_child c' = true)
    ∧ (n.remove_child_node c).1 = mapLookup n.children_ c
    ∧ ((n.remove_child_node c).2).key_char_ = n.key_char_
    ∧ ((n.remove_child_node c).2).value_ = n.value_ := by
  refine ⟨?_, ?_, ?_, rfl, TrieNode.key_char_withChildren n _,
    TrieNode.value_withChildren n _⟩
  · show ((n.withChildren (mapRemove n.children_ c)).has_child c) = false
    rw [TrieNode.has_child, TrieNode.children_withChildren,
      mapLookup_remove_self]
    rfl
  · intro c' hc'
    show mapLookup ((n.withChildren (mapRemove n.children_ c)).children_) c' = _
    rw [TrieNode.children_withChildren, mapLookup_remove_other _ hc']
  · show ((n.withChildren (mapRemove n.children_ c)).has_children = true
      ↔ ∃ c', (n.withChildren (mapRemove n.children_ c)).has_child c' = true)
    simp only [TrieNode.has_children, TrieNode.has_child,
      TrieNode.children_withChildren]
    rw [mapLookup_exists_iff]
    cases mapRemove n.children_ c with
    | nil => simp
    | cons q qs => simp

/-- Witness for C8: removing the `'b'` child from a node with children at
`'b'` and `'c'` leaves no child at `'b'` and the `'c'` child unchanged,
and the removed subtree is returned. -/
theorem trieNode_remove_child_node_spec_witness :
    (((TrieNode.mk 'r' (none : Option Nat)
        [('b', TrieNode.mk 'b' (some 1) []), ('c', TrieNode.mk 'c' (some 2) [])]).remove_child_node
        'b').2).has_child 'b' = false
    ∧ mapLookup ((((TrieNode.mk 'r' (none : Option Nat)
        [('b', TrieNode.mk 'b' (some 1) []), ('c', TrieNode.mk 'c' (some 2) [])]).remove_child_node
        'b').2).children_) 'c'
      = mapLookup ((TrieNode.mk 'r' (none : Option Nat)
        [('b', TrieNode.mk 'b' (some 1) []), ('c', TrieNode.mk 'c' (some 2) [])]).children_) 'c' :=
  ⟨(trieNode_remove_child_node_spec (TrieNode.mk 'r' none
      [('b', TrieNode.mk 'b' (some 1) []), ('c', TrieNode.mk 'c' (some 2) [])]) 'b').1,
   (trieNode_remove_child_node_spec (TrieNode.mk 'r' none
      [('b', TrieNode.mk 'b' (some 1) []), ('c', TrieNode.mk 'c' (some 2) [])]) 'b').2.1
      'c' (by decide)⟩

/-- C9: no operation panics.  `insert` and `get_value` return an actual
result (`isSome`) on every trie state and every key — `none` in the model
marks exactly a panicking `.unwrap()` — and `insert_child_node` either
returns a genuine handle or fails cleanly as `(none, parent unchanged)`,
so its internal `.unwrap()` cannot fire either. -/
theorem trie_operations_total {T : Type} :
    (∀ (t : Trie T) (key : List Char) (v : T), (t.insert key v).isSome = true)
    ∧ (∀ (t : Trie T) (key : List Char), (t.get_value key).isSome = true)
    ∧ (∀ (n : TrieNode T) (c : Char) (child : TrieNode T),
        ((n.insert_child_node c child).1).isSome = true
          ∨ n.insert_child_node c child = (none, n)) := by
  refine ⟨?_, ?_, ?_⟩
  · intro t key v
    cases key with
    | nil => rfl
    | cons c ks =>
      obtain ⟨t', hins, _⟩ := insert_spec t (List.cons_ne_nil c ks) v
      rw [hins]
      rfl
  · intro t key
    rw [get_value_eq]
    rfl
  · intro n c child
    cases hm : mapLookup n.children_ c with
    | some x =>
      exact Or.inr (TrieNode.insert_child_node_fail_exists child
        (by rw [hm]; rfl))
    | none =>
      by_cases h2 : c = child.get_key_char
      · exact Or.inl (by
          rw [TrieNode.insert_child_node_success hm
            (show child.key_char_ = c from h2.symm)]
          rfl)
      · exact Or.inr (TrieNode.insert_child_node_fail_mismatch h2)

/-- C10: `get_value` never modifies the trie — although the Rust
implementation walks with `&mut` handles, the state it hands back equals
the state it started from, for every trie and every key. -/
theorem trie_get_value_pure {T : Type} (t : Trie T) (key : List Char) :
    ∃ r, t.get_value key = some (r, t) :=
  ⟨t.lookup key, get_value_eq t key⟩
